import Mathlib

/-!
# Verification of `wdio-electron-service` utilities

A shallow embedding of `src/utils.ts` of the `wdio-electron-service`
repository, together with theorems checking the design-spec claims about
binary-path resolution (`getBinaryPath`, `getMacExecutableName`),
Chromium-version resolution (`getChromiumVersion`), and chromedriver
provisioning with minor-version fallback (`attemptAssetsDownload`).

External effects (network fetch, artifact download, zip extraction, chmod)
are modelled as explicit parameters: each effectful collaborator becomes a
function returning `Except E …`, and the code under verification is the
pure control flow of `utils.ts` over those outcomes.  JavaScript string
primitives used by the source (`String.prototype.split`,
`String.prototype.replace`, template interpolation of `undefined`) are
embedded with their exact JavaScript semantics.
-/

namespace WdioElectronService

/-! ## JavaScript string primitives -/

/-- JavaScript `String.prototype.split` with a single-character separator,
on the underlying character list.  JS semantics: `"".split(sep)` is `[""]`,
separators at the ends produce empty segments, and the result is never the
empty array. -/
def splitChars (sep : Char) : List Char → List (List Char)
  | [] => [[]]
  | c :: cs =>
    if c = sep then [] :: splitChars sep cs
    else
      match splitChars sep cs with
      | [] => [[c]]
      | g :: gs => (c :: g) :: gs

/-- JS `s.split(sep)` on Lean strings. -/
def splitString (sep : Char) (s : String) : List String :=
  (splitChars sep s.data).map String.mk

theorem splitChars_ne_nil (sep : Char) (l : List Char) : splitChars sep l ≠ [] := by
  induction l with
  | nil => simp [splitChars]
  | cons c cs ih =>
    simp only [splitChars]
    split
    · simp
    · split
      · simp
      · simp

theorem not_mem_of_mem_splitChars {sep : Char} {l : List Char} {g : List Char}
    (hg : g ∈ splitChars sep l) : sep ∉ g := by
  induction l generalizing g with
  | nil =>
    simp only [splitChars, List.mem_singleton] at hg
    simp [hg]
  | cons c cs ih =>
    by_cases hc : c = sep
    · rw [splitChars, if_pos hc] at hg
      rcases List.mem_cons.mp hg with hg | hg
      · simp [hg]
      · exact ih hg
    · rw [splitChars, if_neg hc] at hg
      rcases h : splitChars sep cs with _ | ⟨g0, gs⟩
      · exact absurd h (splitChars_ne_nil sep cs)
      · rw [h] at hg
        rcases List.mem_cons.mp hg with hg | hg
        · subst hg
          intro hmem
          rcases List.mem_cons.mp hmem with h1 | h1
          · exact hc h1.symm
          · exact ih (h ▸ List.mem_cons_self g0 gs) h1
        · exact ih (h ▸ List.mem_cons_of_mem g0 hg)

theorem splitChars_of_not_mem {sep : Char} {a : List Char} (ha : sep ∉ a) :
    splitChars sep a = [a] := by
  induction a with
  | nil => simp [splitChars]
  | cons c cs ih =>
    simp only [List.mem_cons, not_or] at ha
    rw [splitChars, if_neg (fun h : c = sep => ha.1 h.symm), ih ha.2]

theorem splitChars_append {sep : Char} {a : List Char} (ha : sep ∉ a) (r : List Char) :
    splitChars sep (a ++ sep :: r) = a :: splitChars sep r := by
  induction a with
  | nil => simp [splitChars]
  | cons c cs ih =>
    simp only [List.mem_cons, not_or] at ha
    rw [List.cons_append, splitChars, if_neg (fun h : c = sep => ha.1 h.symm), ih ha.2]

/-! ## Baseline-version computation of `attemptAssetsDownload`

The catch-block of `attemptAssetsDownload` computes
`const parts = version.split('.');`
`const baseVersion = ` `` `${parts[0]}.${parts[1]}.0` ``.
In JavaScript, indexing past the end of the array yields `undefined`, which
a template literal renders as the string `"undefined"`. -/

/-- JS array indexing as used inside a template literal: out-of-range
access interpolates as `"undefined"`. -/
def jsIndex (parts : List String) (i : Nat) : String :=
  (parts[i]?).getD "undefined"

/-- The minor-version baseline `` `${parts[0]}.${parts[1]}.0` `` computed by
the catch-block of `attemptAssetsDownload` in `src/utils.ts`. -/
def baselineOf (version : String) : String :=
  let parts := splitString '.' version
  jsIndex parts 0 ++ "." ++ jsIndex parts 1 ++ ".0"

theorem jsIndex_map_mk (gs : List (List Char)) (i : Nat) :
    jsIndex (gs.map String.mk) i = String.mk ((gs[i]?).getD "undefined".data) := by
  unfold jsIndex
  rw [List.getElem?_map]
  rcases gs[i]? with _ | g
  · rfl
  · rfl

theorem dot_not_mem_jsIndex (gs : List (List Char))
    (h : ∀ g ∈ gs, '.' ∉ g) (i : Nat) :
    '.' ∉ (jsIndex (gs.map String.mk) i).data := by
  rw [jsIndex_map_mk]
  show '.' ∉ (gs[i]?).getD "undefined".data
  rcases hp : gs[i]? with _ | g
  · rw [Option.getD_none]
    decide
  · rw [Option.getD_some]
    exact h g (List.getElem?_mem hp)

/-- The baseline computation is a fixed point: re-running
`` `${parts[0]}.${parts[1]}.0` `` on its own output reproduces it.  This is
what bounds the recursion of `attemptAssetsDownload`. -/
theorem baselineOf_baselineOf (version : String) :
    baselineOf (baselineOf version) = baselineOf version := by
  have hsegs : ∀ g ∈ splitChars '.' version.data, '.' ∉ g :=
    fun g hg => not_mem_of_mem_splitChars hg
  have hss : splitString '.' version = (splitChars '.' version.data).map String.mk := rfl
  obtain ⟨s0, hs0⟩ : ∃ s, jsIndex (splitString '.' version) 0 = s := ⟨_, rfl⟩
  obtain ⟨s1, hs1⟩ : ∃ s, jsIndex (splitString '.' version) 1 = s := ⟨_, rfl⟩
  have h0 : '.' ∉ s0.data := by
    rw [← hs0, hss]
    exact dot_not_mem_jsIndex _ hsegs 0
  have h1 : '.' ∉ s1.data := by
    rw [← hs1, hss]
    exact dot_not_mem_jsIndex _ hsegs 1
  have hb : baselineOf version = s0 ++ "." ++ s1 ++ ".0" := by
    rw [← hs0, ← hs1]
    rfl
  have d1 : (".").data = ['.'] := rfl
  have d2 : (".0").data = ['.', '0'] := rfl
  have hdata : (baselineOf version).data = s0.data ++ '.' :: (s1.data ++ '.' :: ['0']) := by
    rw [hb]
    simp only [String.data_append, d1, d2, List.append_assoc, List.singleton_append,
      List.cons_append, List.nil_append]
  have hsplit : splitString '.' (baselineOf version) = [s0, s1, "0"] := by
    show ((splitChars '.' (baselineOf version).data).map String.mk) = [s0, s1, "0"]
    rw [hdata, splitChars_append h0, splitChars_append h1,
      splitChars_of_not_mem (show ('.' : Char) ∉ ['0'] by decide)]
    rfl
  calc baselineOf (baselineOf version)
      = jsIndex (splitString '.' (baselineOf version)) 0 ++ "."
          ++ jsIndex (splitString '.' (baselineOf version)) 1 ++ ".0" := rfl
    _ = jsIndex [s0, s1, "0"] 0 ++ "." ++ jsIndex [s0, s1, "0"] 1 ++ ".0" := by rw [hsplit]
    _ = s0 ++ "." ++ s1 ++ ".0" := rfl
    _ = baselineOf version := hb.symm

/-! ## The provisioning attempt (try-block of `attemptAssetsDownload`)

One provisioning attempt performs, in order: `downloadAssets version`
(via `@electron/get`), `extractZip` on the returned archive path, and —
when `process.env.npm_config_platform || process.platform` is not
`'win32'` — `fs.chmod(…/chromedriver, 0o755)`.  The three collaborators
are modelled as outcome functions in a `ProvisionEnv`. -/

/-- Steps of one provisioning attempt, in the order they are begun. -/
inductive ProvisionEvent where
  | download
  | extract
  | chmod
deriving DecidableEq, Repr

/-- Outcomes of the effectful collaborators used by
`attemptAssetsDownload`, plus the two platform sources consulted for the
chmod guard.  `npmConfigPlatform = none` models an unset
`process.env.npm_config_platform`. -/
structure ProvisionEnv (E : Type) where
  downloadAssets : String → Except E String
  extractZip : String → Except E Unit
  chmodResult : Except E Unit
  npmConfigPlatform : Option String
  processPlatform : String

/-- `process.env.npm_config_platform || process.platform`: JavaScript `||`
falls through on `undefined` and on the empty string (both falsy). -/
def effectivePlatform (npmConfigPlatform : Option String) (processPlatform : String) : String :=
  match npmConfigPlatform with
  | some s => if s = "" then processPlatform else s
  | none => processPlatform

/-- The try-block of `attemptAssetsDownload`: download, then extract, then
(off win32) chmod `0o755`.  Returns the outcome together with the list of
steps begun, in order. -/
def provisionAttempt {E : Type} (env : ProvisionEnv E) (version : String) :
    Except E Unit × List ProvisionEvent :=
  match env.downloadAssets version with
  | .error e => (.error e, [.download])
  | .ok zipPath =>
    match env.extractZip zipPath with
    | .error e => (.error e, [.download, .extract])
    | .ok _ =>
      if effectivePlatform env.npmConfigPlatform env.processPlatform = "win32" then
        (.ok (), [.download, .extract])
      else
        match env.chmodResult with
        | .error e => (.error e, [.download, .extract, .chmod])
        | .ok _ => (.ok (), [.download, .extract, .chmod])

/-- Outcome of one provisioning attempt, ignoring the step trace. -/
def attemptStep {E : Type} (env : ProvisionEnv E) (version : String) : Except E Unit :=
  (provisionAttempt env version).1

/-- `attemptAssetsDownload` of `src/utils.ts`: run one provisioning
attempt; on failure compute the minor-version baseline, re-raise if the
version is already at its baseline, otherwise recurse on the baseline.
Returns the outcome and the list of versions attempted, in order.
Termination: `baselineOf` is a fixed point of itself
(`baselineOf_baselineOf`), so the recursion depth is at most one. -/
def attemptAssetsDownload {E : Type} (env : ProvisionEnv E) (version : String) :
    Except E Unit × List String :=
  match attemptStep env version with
  | .ok _ => (.ok (), [version])
  | .error err =>
    let baseVersion := baselineOf version
    if h : baseVersion = version then
      (.error err, [version])
    else
      let rest := attemptAssetsDownload env baseVersion
      (rest.1, version :: rest.2)
termination_by (if baselineOf version = version then 0 else 1)
decreasing_by
  simp only [baselineOf_baselineOf, if_pos rfl, if_neg h]
  exact Nat.zero_lt_one

/-! ## Binary locator (`getBinaryPath`, `getMacExecutableName`)

`process.platform` and `process.arch` are passed explicitly, as the spec's
design notes prescribe for a pure embedding. -/

/-- JavaScript `String.prototype.endsWith`. -/
def jsEndsWith (s pat : String) : Bool :=
  pat.data.isSuffixOf s.data

/-- JavaScript `String.prototype.replace` with a plain-string pattern, on
character lists: replaces only the FIRST occurrence of `pat` by `repl`, and
returns the input unchanged when `pat` does not occur. -/
def replaceFirstChars (pat repl : List Char) : List Char → List Char
  | [] => []
  | c :: cs =>
    if pat.isPrefixOf (c :: cs) then repl ++ (c :: cs).drop pat.length
    else c :: replaceFirstChars pat repl cs

/-- JS `s.replace(pat, repl)` (string pattern) on Lean strings. -/
def replaceFirst (s pat repl : String) : String :=
  String.mk (replaceFirstChars pat.data repl.data s.data)

/-- `getMacExecutableName` of `src/utils.ts`:
`appName.endsWith(' Helper') ? appName.replace(' Helper', '') : appName`. -/
def getMacExecutableName (appName : String) : String :=
  if jsEndsWith appName " Helper" then replaceFirst appName " Helper" "" else appName

/-- The architecture-dependent darwin subfolder
`arch === 'arm64' ? 'mac-arm64' : 'mac'` of `getBinaryPath`. -/
def macArchFolder (arch : String) : String :=
  if arch = "arm64" then "mac-arm64" else "mac"

/-- `getBinaryPath` of `src/utils.ts`: throws on a platform outside
`{darwin, linux, win32}`, otherwise joins `distPath` with the
platform-specific relative executable path. -/
def getBinaryPath (platform arch distPath appName : String) : Except String String :=
  if platform ∉ ["darwin", "linux", "win32"] then
    .error ("Unsupported platform: " ++ platform)
  else
    let electronPath :=
      if platform = "darwin" then
        macArchFolder arch ++ "/" ++ appName ++ ".app/Contents/MacOS/"
          ++ getMacExecutableName appName
      else if platform = "linux" then
        "linux-unpacked/" ++ appName
      else
        "win-unpacked/" ++ appName ++ ".exe"
    .ok (distPath ++ "/" ++ electronPath)

/-- The path `p` contains `sub` as the leading subfolder directly under the
root `distPath`: `p` starts with `distPath ++ "/" ++ sub ++ "/"`. -/
def containsSubfolder (distPath sub p : String) : Prop :=
  (distPath ++ "/" ++ sub ++ "/").data <+: p.data

/-! ## Chromium-version resolution (`getChromiumVersion`)

The remote fetch of `https://electronjs.org/headers/index.json` is modelled
as an explicit outcome `feedResult`; the bundled `electron-to-chromium`
`fullVersions` table (an external data package) as an explicit map. -/

/-- One record of the remote Electron release feed: `{chrome, version}`. -/
structure ElectronRelease where
  chrome : String
  version : String
deriving DecidableEq, Repr

/-- Dotted version string read as a list of numeric segments; the sort key
of the external `compare-versions` comparator on `MAJOR.MINOR.PATCH`
strings. -/
def versionKey (s : String) : List Nat :=
  (splitString '.' s).map (fun t => t.toNat?.getD 0)

/-- The ascending ordering `compareVersions(a.version, b.version)` used by
the sort in `getChromiumVersion`. -/
def releaseLe (a b : ElectronRelease) : Bool :=
  decide (versionKey a.version ≤ versionKey b.version)

/-- `allElectronVersions.sort((a, b) => compareVersions(a, b))`:
JavaScript's `Array.prototype.sort` is a stable sort, modelled by the
stable `List.mergeSort`. -/
def sortReleases (rs : List ElectronRelease) : List ElectronRelease :=
  rs.mergeSort releaseLe

/-- The `forEach` loop of `getChromiumVersion` filling the
`electronChromiumVersionMap` object: later assignments to the same key
overwrite earlier ones. -/
def buildVersionMap (rs : List ElectronRelease) : String → Option String :=
  rs.foldl (fun m r => fun k => if k = r.version then some r.chrome else m k)
    (fun _ => none)

/-- The try-branch of `getChromiumVersion`: sort the feed ascending, build
the version map, look up the requested version. -/
def getChromiumVersionOnline (feed : List ElectronRelease) (electronVersion : String) :
    Option String :=
  buildVersionMap (sortReleases feed) electronVersion

/-- `getChromiumVersion` of `src/utils.ts`: on a successful fetch, resolve
against the sorted remote feed; on any fetch/parse failure, the
catch-branch falls back to the bundled `fullVersions` table. -/
def getChromiumVersion {F : Type} (feedResult : Except F (List ElectronRelease))
    (fullVersions : String → Option String) (electronVersion : String) : Option String :=
  match feedResult with
  | .ok feed => getChromiumVersionOnline feed electronVersion
  | .error _ => fullVersions electronVersion

/-! ## Claims about the binary locator -/

/-- C4: `getBinaryPath` returns a path exactly on the three supported
platforms; on any other platform value it fails with the
`Unsupported platform` error carrying the offending platform string. -/
theorem getBinaryPath_unsupported_platform (platform arch distPath appName : String) :
    ((∃ p, getBinaryPath platform arch distPath appName = Except.ok p)
      ↔ platform ∈ ["darwin", "linux", "win32"])
    ∧ (getBinaryPath platform arch distPath appName
        = Except.error ("Unsupported platform: " ++ platform)
      ↔ platform ∉ ["darwin", "linux", "win32"]) := by
  by_cases hp : platform ∈ ["darwin", "linux", "win32"]
  · simp [getBinaryPath, hp]
  · simp [getBinaryPath, hp]

/-- C6: on darwin the computed binary path lives under the `mac-arm64`
subfolder of `distPath` exactly when the architecture is `arm64`, and under
the generic `mac` subfolder for every other architecture value. -/
theorem getBinaryPath_darwin_archFolder (arch distPath appName : String) :
    ∃ p, getBinaryPath "darwin" arch distPath appName = Except.ok p
      ∧ (containsSubfolder distPath "mac-arm64" p ↔ arch = "arm64")
      ∧ (containsSubfolder distPath "mac" p ↔ arch ≠ "arm64") := by
  refine ⟨distPath ++ "/" ++ (macArchFolder arch ++ "/" ++ appName
      ++ ".app/Contents/MacOS/" ++ getMacExecutableName appName), rfl, ?_, ?_⟩
  all_goals
    by_cases ha : arch = "arm64" <;>
      simp only [containsSubfolder, macArchFolder, ha, if_pos, if_neg, ne_eq,
        not_false_iff, iff_true, not_true, iff_false, if_true, String.data_append,
        List.append_assoc] <;>
      simp [String.data, List.cons_prefix_cons, List.nil_prefix]

/-! ### The `" Helper"` suffix rule

JavaScript `appName.replace(' Helper', '')` removes the FIRST occurrence of
`" Helper"`, not the trailing one.  The two agree whenever `" Helper"`
occurs only once (in particular for every name of the usual
`"<App> Helper"` shape), and disagree when it occurs earlier as well. -/

theorem jsEndsWith_append (w p : String) : jsEndsWith (w ++ p) p = true := by
  unfold jsEndsWith
  rw [String.data_append]
  simp [List.isSuffixOf_iff_suffix]

/-- Removing the first occurrence of a borderless pattern `pat` from
`w ++ pat`, where `pat` does not occur inside `w`, removes the final
`pat`. -/
theorem replaceFirstChars_append_self {pat : List Char} (hne : pat ≠ [])
    (hborder : ∀ k, 0 < k → k < pat.length → pat.take k ≠ pat.drop (pat.length - k))
    (repl : List Char) :
    ∀ {w : List Char}, ¬ pat <:+: w → replaceFirstChars pat repl (w ++ pat) = w ++ repl := by
  intro w
  induction w with
  | nil =>
    intro _
    rw [List.nil_append, List.nil_append]
    rcases hpat : pat with _ | ⟨p, ps⟩
    · exact absurd hpat hne
    · rw [replaceFirstChars, if_pos (by simp), List.drop_length, List.append_nil]
  | cons c cs ih =>
    intro hw
    have hw' : ¬ pat <:+: cs := fun h => hw (List.infix_cons h)
    have hnpre : ¬ pat <+: (c :: cs) ++ pat := by
      intro hpre
      by_cases hlen : pat.length ≤ (c :: cs).length
      · have htake := List.prefix_iff_eq_take.mp hpre
        rw [List.take_append_of_le_length hlen] at htake
        have hpre2 : pat <+: c :: cs := htake ▸ List.take_prefix _ _
        exact hw hpre2.isInfix
      · push_neg at hlen
        have htake := List.prefix_iff_eq_take.mp hpre
        rw [List.take_append_eq_append_take,
          List.take_of_length_le (Nat.le_of_lt hlen)] at htake
        have hdrop : pat.drop (c :: cs).length
            = pat.take (pat.length - (c :: cs).length) := by
          conv_lhs => rw [htake]
          rw [List.drop_left]
        have hcs : 0 < (c :: cs).length := by simp
        have hk := hborder (pat.length - (c :: cs).length)
          (by omega) (by omega)
        have hnm : pat.length - (pat.length - (c :: cs).length) = (c :: cs).length := by
          omega
        rw [hnm] at hk
        exact hk hdrop.symm
    have hnp : ¬ (pat.isPrefixOf (c :: (cs ++ pat)) = true) := by
      rw [List.isPrefixOf_iff_prefix]
      rw [List.cons_append] at hnpre
      exact hnpre
    rw [List.cons_append, replaceFirstChars, if_neg hnp, ih hw']
    rfl

/-- When `" Helper"` does not occur inside `w`, the source's
first-occurrence replacement on `w ++ " Helper"` strips exactly the
trailing suffix. -/
theorem getMacExecutableName_unique_helper {w : String}
    (hw : ¬ (" Helper").data <:+: w.data) :
    getMacExecutableName (w ++ " Helper") = w := by
  unfold getMacExecutableName
  rw [jsEndsWith_append, if_pos rfl]
  unfold replaceFirst
  have hdata : (w ++ " Helper").data = w.data ++ (" Helper").data :=
    String.data_append _ _
  rw [hdata, replaceFirstChars_append_self (by decide)
    (by
      intro k h1 h2
      have h7 : (" Helper").data.length = 7 := rfl
      rw [h7] at h2 ⊢
      interval_cases k <;> decide) _ hw]
  show String.mk (w.data ++ []) = w
  rw [List.append_nil]

/-- C5 counterexample: for `appName = "A Helper B Helper"` (which ends with
`" Helper"`), the inner executable name computed by the source is
`"A B Helper"` — the FIRST occurrence of `" Helper"` is removed — and not
`"A Helper B"`, the name with the trailing suffix removed, as the claim
states. -/
theorem getBinaryPath_darwin_helper_counterexample :
    getBinaryPath "darwin" "x64" "/dist" "A Helper B Helper"
        = Except.ok "/dist/mac/A Helper B Helper.app/Contents/MacOS/A B Helper"
      ∧ getBinaryPath "darwin" "x64" "/dist" "A Helper B Helper"
        ≠ Except.ok "/dist/mac/A Helper B Helper.app/Contents/MacOS/A Helper B" := by
  refine ⟨rfl, fun h => ?_⟩
  rw [show getBinaryPath "darwin" "x64" "/dist" "A Helper B Helper"
      = Except.ok "/dist/mac/A Helper B Helper.app/Contents/MacOS/A B Helper" from rfl] at h
  exact absurd (Except.ok.inj h) (by decide)

/-- C5 (amended): on darwin, when `appName` ends with `" Helper"` the inner
executable name is `appName` with the FIRST occurrence of `" Helper"`
removed while the outer `<appName>.app` bundle component retains the full
`appName`; when `appName` does not end with `" Helper"` it is used
unchanged in both positions; and whenever `" Helper"` occurs only as the
trailing suffix, removing the first occurrence coincides with removing the
trailing suffix (the behaviour the original claim describes). -/
theorem getBinaryPath_darwin_helper_suffix (arch distPath appName : String) :
    (jsEndsWith appName " Helper" = true →
      getBinaryPath "darwin" arch distPath appName
        = Except.ok (distPath ++ "/" ++ (macArchFolder arch ++ "/" ++ appName
            ++ ".app/Contents/MacOS/" ++ replaceFirst appName " Helper" "")))
    ∧ (jsEndsWith appName " Helper" = false →
      getBinaryPath "darwin" arch distPath appName
        = Except.ok (distPath ++ "/" ++ (macArchFolder arch ++ "/" ++ appName
            ++ ".app/Contents/MacOS/" ++ appName)))
    ∧ (∀ w : String, ¬ (" Helper").data <:+: w.data →
        getMacExecutableName (w ++ " Helper") = w) := by
  have hpath : getBinaryPath "darwin" arch distPath appName
      = Except.ok (distPath ++ "/" ++ (macArchFolder arch ++ "/" ++ appName
          ++ ".app/Contents/MacOS/" ++ getMacExecutableName appName)) := rfl
  refine ⟨fun hend => ?_, fun hend => ?_, fun w hw => getMacExecutableName_unique_helper hw⟩
  · have hname : getMacExecutableName appName = replaceFirst appName " Helper" "" := by
      unfold getMacExecutableName
      rw [hend, if_pos rfl]
    rw [hpath, hname]
  · have hname : getMacExecutableName appName = appName := by
      unfold getMacExecutableName
      rw [hend]
      simp
    rw [hpath, hname]

/-- Witness for `getBinaryPath_darwin_helper_suffix` at concrete inputs:
an ordinary helper name, a non-helper name, and a single-occurrence
suffix. -/
theorem getBinaryPath_darwin_helper_suffix_witness :
    getBinaryPath "darwin" "x64" "/d" "My App Helper"
        = Except.ok ("/d" ++ "/" ++ (macArchFolder "x64" ++ "/" ++ "My App Helper"
            ++ ".app/Contents/MacOS/" ++ replaceFirst "My App Helper" " Helper" ""))
      ∧ getBinaryPath "darwin" "x64" "/d" "Plain"
        = Except.ok ("/d" ++ "/" ++ (macArchFolder "x64" ++ "/" ++ "Plain"
            ++ ".app/Contents/MacOS/" ++ "Plain"))
      ∧ getMacExecutableName ("My App" ++ " Helper") = "My App" :=
  ⟨(getBinaryPath_darwin_helper_suffix "x64" "/d" "My App Helper").1 rfl,
   (getBinaryPath_darwin_helper_suffix "x64" "/d" "Plain").2.1 rfl,
   (getBinaryPath_darwin_helper_suffix "x64" "/d" "My App").2.2 "My App" (by decide)⟩

/-! ## Claims about version resolution -/

/-- C3: when the fetch/parse of the remote feed fails, `getChromiumVersion`
surfaces no error: it returns exactly the bundled static table's entry for
the requested version — in particular a defined value for any version
present in that table.  (Totality of the embedding records that the
catch-branch absorbs the failure rather than re-throwing.) -/
theorem getChromiumVersion_fetch_failure {F : Type} (e : F)
    (fullVersions : String → Option String) (electronVersion : String) :
    getChromiumVersion (Except.error e) fullVersions electronVersion
      = fullVersions electronVersion := rfl

theorem releaseLe_trans (a b c : ElectronRelease)
    (hab : releaseLe a b) (hbc : releaseLe b c) : releaseLe a c := by
  simp only [releaseLe, decide_eq_true_eq] at hab hbc ⊢
  exact le_trans hab hbc

theorem releaseLe_total (a b : ElectronRelease) : releaseLe a b || releaseLe b a := by
  simp only [releaseLe]
  rcases le_total (versionKey a.version) (versionKey b.version) with h | h <;> simp [h]

/-- C7: the version-resolution step is deterministic and idempotent —
sorting an already-sorted feed changes nothing, so re-running the step on
the same remote response yields the identical mapping and result; and the
spec's end-to-end example resolves as stated. -/
theorem getChromiumVersion_idempotent (feed : List ElectronRelease) (v : String) :
    sortReleases (sortReleases feed) = sortReleases feed
    ∧ buildVersionMap (sortReleases (sortReleases feed)) v
        = buildVersionMap (sortReleases feed) v
    ∧ getChromiumVersionOnline
        [{ chrome := "116.0.5845.0", version := "26.0.0" }] "26.0.0"
      = some "116.0.5845.0" := by
  have hsorted : sortReleases (sortReleases feed) = sortReleases feed :=
    List.mergeSort_of_sorted (List.sorted_mergeSort releaseLe_trans releaseLe_total feed)
  refine ⟨hsorted, by rw [hsorted], ?_⟩
  simp [getChromiumVersionOnline, sortReleases, buildVersionMap]

theorem buildVersionMap_foldl_absent (rs : List ElectronRelease)
    (m : String → Option String) (v : String) (h : ∀ r ∈ rs, r.version ≠ v) :
    rs.foldl (fun m r => fun k => if k = r.version then some r.chrome else m k) m v
      = m v := by
  induction rs generalizing m with
  | nil => rfl
  | cons r rs ih =>
    rw [List.foldl_cons, ih _ (fun r' hr' => h r' (List.mem_cons_of_mem _ hr'))]
    have hv : ¬ (v = r.version) := fun hv => h r (List.mem_cons_self r rs) hv.symm
    exact if_neg hv

theorem buildVersionMap_absent {rs : List ElectronRelease} {v : String}
    (h : ∀ r ∈ rs, r.version ≠ v) : buildVersionMap rs v = none :=
  buildVersionMap_foldl_absent rs _ v h

/-- C8: a requested version absent from the resolved map — the remote map
when the fetch succeeded, the bundled table when it failed — makes
`getChromiumVersion` return `none` (JS `undefined`); no error is raised
and no validation intervenes. -/
theorem getChromiumVersion_absent {F : Type} (e : F) (feed : List ElectronRelease)
    (fullVersions : String → Option String) (v : String) :
    ((∀ r ∈ feed, r.version ≠ v) →
      @getChromiumVersion F (Except.ok feed) fullVersions v = none)
    ∧ (fullVersions v = none →
      getChromiumVersion (Except.error e) fullVersions v = none) := by
  constructor
  · intro h
    show buildVersionMap (sortReleases feed) v = none
    exact buildVersionMap_absent
      (fun r hr => h r (List.mem_mergeSort.mp hr))
  · intro h
    exact h

/-- Witness for `getChromiumVersion_absent`: a concrete one-record feed and
an empty bundled table, queried at a version neither contains. -/
theorem getChromiumVersion_absent_witness :
    @getChromiumVersion Unit
        (Except.ok [{ chrome := "116.0.5845.0", version := "26.0.0" }])
        (fun _ => none) "1.2.3" = none
      ∧ getChromiumVersion (Except.error ()) (fun _ => none) "1.2.3" = none :=
  ⟨(getChromiumVersion_absent () [{ chrome := "116.0.5845.0", version := "26.0.0" }]
      (fun _ => none) "1.2.3").1 (by decide),
   (getChromiumVersion_absent () [] (fun _ => none) "1.2.3").2 rfl⟩

/-! ## Claims about the provisioning flow -/

/-- C9: within one provisioning attempt, the chmod step is begun only with
the full `download, extract, chmod` history in place — i.e. only after
extraction completed — and it is begun exactly when download and extraction
succeeded and the effective platform (`npm_config_platform` override if
truthy, otherwise the host platform) is not `win32`. -/
theorem provisionAttempt_chmod_after_extract {E : Type} (env : ProvisionEnv E)
    (version : String) :
    (provisionAttempt env version).2
        <+: [ProvisionEvent.download, ProvisionEvent.extract, ProvisionEvent.chmod]
    ∧ (ProvisionEvent.chmod ∈ (provisionAttempt env version).2
        ↔ ∃ zipPath, env.downloadAssets version = Except.ok zipPath
            ∧ env.extractZip zipPath = Except.ok ()
            ∧ effectivePlatform env.npmConfigPlatform env.processPlatform ≠ "win32") := by
  rcases hd : env.downloadAssets version with e | zipPath
  · simp only [provisionAttempt, hd]
    exact ⟨by decide, by simp [hd]⟩
  · rcases he : env.extractZip zipPath with e | u
    · simp only [provisionAttempt, hd, he]
      exact ⟨by decide, by simp [hd, he]⟩
    · by_cases hp : effectivePlatform env.npmConfigPlatform env.processPlatform = "win32"
      · simp only [provisionAttempt, hd, he, if_pos hp]
        exact ⟨by decide, by simp [hd, he, hp]⟩
      · rcases hc : env.chmodResult with e | u2
        · simp only [provisionAttempt, hd, he, if_neg hp, hc]
          exact ⟨by decide, by simp [hd, he, hp]⟩
        · simp only [provisionAttempt, hd, he, if_neg hp, hc]
          exact ⟨by decide, by simp [hd, he, hp]⟩

theorem attemptAssetsDownload_of_ok {E : Type} {env : ProvisionEnv E} {version : String}
    (h : attemptStep env version = Except.ok ()) :
    attemptAssetsDownload env version = (Except.ok (), [version]) := by
  rw [attemptAssetsDownload, h]

theorem attemptAssetsDownload_terminal {E : Type} {env : ProvisionEnv E} {version : String}
    {e : E} (hbase : baselineOf version = version)
    (h : attemptStep env version = Except.error e) :
    attemptAssetsDownload env version = (Except.error e, [version]) := by
  rw [attemptAssetsDownload, h]
  simp [hbase]

theorem attemptAssetsDownload_recurse {E : Type} {env : ProvisionEnv E} {version : String}
    {e : E} (hbase : baselineOf version ≠ version)
    (h : attemptStep env version = Except.error e) :
    attemptAssetsDownload env version
      = ((attemptAssetsDownload env (baselineOf version)).1,
         version :: (attemptAssetsDownload env (baselineOf version)).2) := by
  rw [attemptAssetsDownload, h]
  simp [hbase]

/-- C2: when the target version is already its own `.0` baseline, a failed
provisioning attempt is terminal — no further attempt is made (the trace is
just `[version]`) and the original underlying error object is re-raised
unwrapped. -/
theorem attemptAssetsDownload_terminal_at_baseline {E : Type} (env : ProvisionEnv E)
    (version : String) (e : E) (hbase : baselineOf version = version)
    (h : attemptStep env version = Except.error e) :
    attemptAssetsDownload env version = (Except.error e, [version]) :=
  attemptAssetsDownload_terminal hbase h

/-- Witness for `attemptAssetsDownload_terminal_at_baseline`: version
`"10.1.0"` with a failing download surfaces that very error after a single
attempt. -/
theorem attemptAssetsDownload_terminal_at_baseline_witness :
    attemptAssetsDownload
        { downloadAssets := fun _ => Except.error "HTTP 404"
          extractZip := fun _ => Except.ok ()
          chmodResult := Except.ok ()
          npmConfigPlatform := none
          processPlatform := "linux" : ProvisionEnv String } "10.1.0"
      = (Except.error "HTTP 404", ["10.1.0"]) :=
  attemptAssetsDownload_terminal_at_baseline _ "10.1.0" "HTTP 404" (by decide) rfl

/-- C1: when the target version is not at its `.0` baseline and the attempt
for it fails, exactly one retry is made, at the baseline version
`"{major}.{minor}.0"`; and if that baseline attempt fails too, the error
surfaced to the caller is the baseline attempt's own error. -/
theorem attemptAssetsDownload_fallback_once {E : Type} (env : ProvisionEnv E)
    (version : String) (e1 : E) (hne : baselineOf version ≠ version)
    (hfail : attemptStep env version = Except.error e1) :
    (attemptAssetsDownload env version).2 = [version, baselineOf version]
    ∧ ∀ e2 : E, attemptStep env (baselineOf version) = Except.error e2 →
        (attemptAssetsDownload env version).1 = Except.error e2 := by
  have hrec := attemptAssetsDownload_recurse hne hfail
  constructor
  · rw [hrec]
    rcases hb : attemptStep env (baselineOf version) with e2 | u
    · rw [attemptAssetsDownload_terminal (baselineOf_baselineOf version) hb]
    · have hu : attemptStep env (baselineOf version) = Except.ok () := hb
      rw [attemptAssetsDownload_of_ok hu]
  · intro e2 hb
    rw [hrec, attemptAssetsDownload_terminal (baselineOf_baselineOf version) hb]

/-- Witness for `attemptAssetsDownload_fallback_once`: version `"10.1.5"`
with every download failing retries at `"10.1.0"` and surfaces the second
attempt's error. -/
theorem attemptAssetsDownload_fallback_once_witness :
    (attemptAssetsDownload
        { downloadAssets := fun v => Except.error ("no build for " ++ v)
          extractZip := fun _ => Except.ok ()
          chmodResult := Except.ok ()
          npmConfigPlatform := none
          processPlatform := "linux" : ProvisionEnv String } "10.1.5").2
      = ["10.1.5", "10.1.0"]
    ∧ (attemptAssetsDownload
        { downloadAssets := fun v => Except.error ("no build for " ++ v)
          extractZip := fun _ => Except.ok ()
          chmodResult := Except.ok ()
          npmConfigPlatform := none
          processPlatform := "linux" : ProvisionEnv String } "10.1.5").1
      = Except.error ("no build for " ++ "10.1.0") := by
  have h := attemptAssetsDownload_fallback_once
    { downloadAssets := fun v => Except.error ("no build for " ++ v)
      extractZip := fun _ => Except.ok ()
      chmodResult := Except.ok ()
      npmConfigPlatform := none
      processPlatform := "linux" : ProvisionEnv String }
    "10.1.5" ("no build for " ++ "10.1.5") (by decide) rfl
  exact ⟨by rw [h.1]; rfl, h.2 _ rfl⟩

/-- C10: for every version string whatsoever — well-formed or not — the
baseline computation is a fixed point of itself, so `attemptAssetsDownload`
terminates after at most two provisioning attempts. -/
theorem attemptAssetsDownload_two_attempts {E : Type} (env : ProvisionEnv E)
    (version : String) :
    baselineOf (baselineOf version) = baselineOf version
    ∧ (attemptAssetsDownload env version).2.length ≤ 2 := by
  refine ⟨baselineOf_baselineOf version, ?_⟩
  rcases h : attemptStep env version with e | u
  · by_cases hbase : baselineOf version = version
    · rw [attemptAssetsDownload_terminal hbase h]
      simp
    · rw [attemptAssetsDownload_recurse hbase h]
      rcases hb : attemptStep env (baselineOf version) with e2 | u2
      · rw [attemptAssetsDownload_terminal (baselineOf_baselineOf version) hb]
        simp
      · have hu : attemptStep env (baselineOf version) = Except.ok () := hb
        rw [attemptAssetsDownload_of_ok hu]
        simp
  · have hu : attemptStep env version = Except.ok () := h
    rw [attemptAssetsDownload_of_ok hu]
    simp

end WdioElectronService
